import Mathlib

/-!
Verification development for the event store and delivery subsystem of the
echo-debugmonitor repository: the Snowflake-style ID generator (idgen.go),
the bounded ordered store with event fan-out (store.go), and the monitor
registry (manager.go, monitor.go).

The Go code is shallowly embedded: machine int64 arithmetic is modelled on
unbounded Int with explicit wrap-around modulo 2 to the 64, blocking waits on
the wall clock are modelled by an explicit list of successive clock readings
(the busy-wait loop consumes readings until one is large enough, and returns
none when the list is exhausted), and mutation is modelled by explicit state
passing.
-/

/-! ## ID generator (idgen.go) -/

/-- Bit allocation for the 64-bit ID: 1 sign bit, 45 timestamp bits,
18 sequence bits (`sequenceBits = 18` in idgen.go). -/

def sequenceBits : Nat := 18

/-- Model of `maxSequence = (1 << sequenceBits) - 1 = 262143` in idgen.go. -/

def maxSequence : Int := 2 ^ sequenceBits - 1

/-- Model of `timestampShift = sequenceBits` in idgen.go. -/

def timestampShift : Nat := sequenceBits

/-- Generator state: `lastTimestamp` and `sequence` fields of `IDGenerator`
in idgen.go. The Go mutex only serialises concurrent callers; the sequential
semantics is captured by the state. -/

structure IDGenerator where
  lastTimestamp : Int
  sequence : Int
deriving DecidableEq

/-- Model of `NewIDGenerator` in idgen.go: both fields start at zero. -/

def NewIDGenerator : IDGenerator := { lastTimestamp := 0, sequence := 0 }

/-- Reinterpret an unbounded integer as a twos-complement 64-bit value:
Go int64 arithmetic wraps modulo 2 to the 64. The constants are 2 to the 63
and 2 to the 64. -/

def toInt64 (n : Int) : Int :=
  (n + 9223372036854775808) % 18446744073709551616 - 9223372036854775808

/-- The packed ID built at the end of `Generate` in idgen.go:
`id := (timestamp << timestampShift) | g.sequence`. The Go left shift on
int64 is multiplication modulo 2 to the 64, and `|` is bitwise or. -/

def packId (timestamp seq : Int) : Int :=
  Int.lor (toInt64 (timestamp * 2 ^ timestampShift)) seq

/-- Model of `waitNextMillis` in idgen.go: repeatedly read the clock (consuming one
reading per iteration of the busy-wait loop) until a reading strictly
greater than `lastTimestamp` appears; `none` models running out of modelled
clock readings (in Go the loop would simply keep sleeping). -/

def waitNextMillis (lastTimestamp : Int) : List Int → Option (Int × List Int)
  | [] => none
  | t :: rest =>
    if t ≤ lastTimestamp then waitNextMillis lastTimestamp rest
    else some (t, rest)

/-- Model of `Generate` in idgen.go. The head of the clock list is the reading taken
by `currentTimestamp()`; the remaining readings feed the busy-wait loops.
Returns the generated ID, the new generator state, and the unused clock
readings. -/

def IDGenerator.Generate (g : IDGenerator) :
    List Int → Option (Int × IDGenerator × List Int)
  | [] => none
  | t0 :: r =>
    match (if t0 < g.lastTimestamp
           then waitNextMillis (g.lastTimestamp - 1) r
           else some (t0, r)) with
    | none => none
    | some (ts1, r1) =>
      if ts1 = g.lastTimestamp then
        if Int.land (g.sequence + 1) maxSequence = 0 then
          -- sequence overflow: wait for the next millisecond
          match waitNextMillis ts1 r1 with
          | none => none
          | some (ts2, r2) =>
            some (packId ts2 0, { lastTimestamp := ts2, sequence := 0 }, r2)
        else
          some (packId ts1 (Int.land (g.sequence + 1) maxSequence),
                { lastTimestamp := ts1,
                  sequence := Int.land (g.sequence + 1) maxSequence }, r1)
      else
        -- new millisecond: reset sequence to 0
        some (packId ts1 0, { lastTimestamp := ts1, sequence := 0 }, r1)

/-- A run of successive `Generate` calls on one generator instance, each call
observing its own list of clock readings; returns the list of generated IDs
and the final state, or `none` when some call ran out of modelled readings. -/

def generateRun (g : IDGenerator) :
    List (List Int) → Option (List Int × IDGenerator)
  | [] => some ([], g)
  | clk :: rest =>
    match g.Generate clk with
    | none => none
    | some (id, g1, _) =>
      match generateRun g1 rest with
      | none => none
      | some (ids, g2) => some (id :: ids, g2)

/-- The packed value corresponding to a generator state,
`lastTimestamp * 2 ^ 18 + sequence`: for a state reached by `Generate` this
is the value the last call returned (0 for a fresh generator, below every
generated ID). -/

def emittedVal (g : IDGenerator) : Int :=
  g.lastTimestamp * 262144 + g.sequence

/-- Generator state invariant: both fields are nonnegative, the sequence fits
in its 18-bit field, and the timestamp is inside the 45-bit field documented
in idgen.go (2 to the 45 milliseconds, about 1115 years past the epoch). -/

def GenInv (g : IDGenerator) : Prop :=
  0 ≤ g.lastTimestamp ∧ g.lastTimestamp < 35184372088832 ∧
  0 ≤ g.sequence ∧ g.sequence ≤ maxSequence

instance (g : IDGenerator) : Decidable (GenInv g) := by
  unfold GenInv; infer_instance

/-! ## Bounded ordered store (store.go)

The Go `Store` keeps a doubly linked list `order` (insertion order, front =
oldest) and a map `entries : map[int64]*list.Element` for O(1) access. The
list is modelled as a Lean list (head = front = oldest); the key set of the
map is modelled as `index : List Int` (a Go map assignment adds the key if
absent, `delete` removes it). Channel-based event subscriptions are modelled
by explicit buffer lists: an element of `ch` is a value sitting in the
buffered channel, `chCap` entries fit (10 for Add events, 1 for Clear
events, from the `make(chan ..., n)` calls in store.go). -/

/-- Model of `DataEntry` in store.go; the payload type is opaque (`any` in Go). -/

structure DataEntry (α : Type) where
  id : Int
  payload : α
deriving DecidableEq

/-- Model of `AddEvent` in store.go: a subscription to Add events. `eid` stands for
the Go pointer identity used by `unsubscribeAdd` to find the subscription;
`ch` is the content of the buffered channel (capacity 10); `chClosed`
records that `close(e.ch)` ran; `closed` is the `closed` field. -/

structure AddEvent (α : Type) where
  eid : Nat
  ch : List (DataEntry α)
  chClosed : Bool
  closed : Bool
deriving DecidableEq

/-- Model of `ClearEvent` in store.go: a subscription to Clear events, with a
buffered channel of capacity 1 carrying empty-struct signals. -/

structure ClearEvent where
  eid : Nat
  ch : List Unit
  chClosed : Bool
  closed : Bool
deriving DecidableEq

/-- Model of `Store` in store.go. `maxRecords`, the embedded `idGen`, the insertion
order list (head = oldest), the key set of the `entries` map, and the two
subscription lists. -/

structure Store (α : Type) where
  maxRecords : Nat
  gen : IDGenerator
  order : List (DataEntry α)
  index : List Int
  addEvents : List (AddEvent α)
  clearEvents : List ClearEvent
deriving DecidableEq

/-- Model of `NewStore` in store.go: a non-positive `maxRecords` argument falls back
to the default maximum of 1000. -/

def NewStore (α : Type) (maxRecords : Int) : Store α :=
  { maxRecords := if maxRecords ≤ 0 then 1000 else maxRecords.toNat,
    gen := NewIDGenerator,
    order := [],
    index := [],
    addEvents := [],
    clearEvents := [] }

/-- Assignment `s.entries[id] = element` on the key set of a Go map: the key
is added if absent. -/

def insertKey (l : List Int) (id : Int) : List Int :=
  if id ∈ l then l else l ++ [id]

/-- The mutation inside the lock in `Store.Add` (store.go), after the ID has
been generated: push the new entry at the back, index it, and if the size
now exceeds `maxRecords` remove the front (oldest) entry from both the
order list and the map (`delete(s.entries, oldEntry.Id)` plus
`s.order.Remove(oldest)`). -/

def Store.addRecord (s : Store α) (id : Int) (payload : α) : Store α :=
  let entry : DataEntry α := { id := id, payload := payload }
  let order1 := s.order ++ [entry]
  let index1 := insertKey s.index id
  if s.maxRecords < order1.length then
    match order1 with
    | [] => { s with order := order1, index := index1 }
    | oldest :: restOrder =>
      { s with order := restOrder,
               index := index1.filter (fun k => decide (k ≠ oldest.id)) }
  else
    { s with order := order1, index := index1 }

/-- Model of `notifyAddEvents` in store.go: a non-blocking send to each subscriber;
a send on a channel whose buffer is full (10 pending entries) falls into the
`default` branch and the notification is dropped for that subscriber. -/

def notifyAddEvents (events : List (AddEvent α)) (entry : DataEntry α) :
    List (AddEvent α) :=
  events.map (fun e => if e.ch.length < 10 then { e with ch := e.ch ++ [entry] } else e)

/-- Model of `notifyClearEvents` in store.go: same non-blocking fan-out with buffer
capacity 1. -/

def notifyClearEvents (events : List ClearEvent) : List ClearEvent :=
  events.map (fun e => if e.ch.length < 1 then { e with ch := e.ch ++ [()] } else e)

/-- Model of `Store.Add` in store.go: generate a Snowflake ID (mutating the embedded
generator), insert and possibly evict under the lock, then notify the Add
subscribers outside the lock. The Go method returns no value to its caller;
the entry and leftover clock readings are returned here only so that the
embedding can be composed and reasoned about. -/

def Store.Add (s : Store α) (payload : α) (clock : List Int) :
    Option (Store α × DataEntry α × List Int) :=
  match s.gen.Generate clock with
  | none => none
  | some (id, g1, rest) =>
    let entry : DataEntry α := { id := id, payload := payload }
    let s1 := Store.addRecord { s with gen := g1 } id payload
    some ({ s1 with addEvents := notifyAddEvents s1.addEvents entry }, entry, rest)

/-- The tuple of values the Go method `Store.Add` hands back to its caller:
the signature `func (s *Store) Add(payload any)` in store.go declares an
empty result list, so the caller receives nothing (the unit value),
whatever the store, the payload or the generated ID are. -/

def Store.addCallerResult (s : Store α) (payload : α) (clock : List Int) :
    Unit := ()

/-- Model of `Store.GetLatest` in store.go: walk backwards from the tail collecting
at most `count` entries, newest first. -/

def Store.GetLatest (s : Store α) (n : Int) : List (DataEntry α) :=
  if n ≤ 0 then []
  else
    (s.order.reverse).take
      (if ((s.order.length : Int)) < n then (s.order.length : Int) else n).toNat

/-- The linear fallback scan in `Store.GetSince` (store.go): find the first
element with ID greater than `sinceID` and collect from there to the end. -/

def findFirstGreater (sinceID : Int) : List (DataEntry α) → List (DataEntry α)
  | [] => []
  | e :: rest =>
    if sinceID < e.id then e :: rest else findFirstGreater sinceID rest

/-- The fast path of `Store.GetSince` (store.go) when `sinceID` is a key of
the `entries` map: start from `element.Next()` and collect to the end,
i.e. take the part of the order list strictly after the element carrying
`sinceID`. -/

def suffixAfterId (sinceID : Int) : List (DataEntry α) → List (DataEntry α)
  | [] => []
  | e :: rest => if e.id = sinceID then rest else suffixAfterId sinceID rest

/-- Model of `Store.GetSince` in store.go: all entries with ID greater than
`sinceID` in insertion order; `sinceID = 0` starts from the front, a key
present in the map starts right after its element, and an absent key falls
back to the linear scan. -/

def Store.GetSince (s : Store α) (sinceID : Int) : List (DataEntry α) :=
  if sinceID = 0 then s.order
  else if sinceID ∈ s.index then suffixAfterId sinceID s.order
  else findFirstGreater sinceID s.order

/-- Model of `Store.GetById` in store.go: map lookup, `none` for absent ids. The map
value is the list element carrying the entry, so the lookup is modelled as
locating the entry with that id in the order list. -/

def Store.GetById (s : Store α) (id : Int) : Option (DataEntry α) :=
  if id ∈ s.index then (s.order.find? (fun e => decide (e.id = id))) else none

/-- Model of `Store.Len` in store.go: the length of the order list. -/

def Store.Len (s : Store α) : Nat := s.order.length

/-- Model of `Store.Clear` in store.go: under the lock replace the generator with a
fresh `NewIDGenerator`, empty the map and reset the order list; then notify
the Clear subscribers outside the lock. -/

def Store.Clear (s : Store α) : Store α :=
  let s1 := { s with gen := NewIDGenerator,
                     index := ([] : List Int),
                     order := ([] : List (DataEntry α)) }
  { s1 with clearEvents := notifyClearEvents s1.clearEvents }

/-- Model of `unsubscribeAdd` in store.go: remove the first (pointer-identical)
occurrence of the subscription from the list. -/

def unsubscribeAdd (events : List (AddEvent α)) (eid : Nat) :
    List (AddEvent α) :=
  match events with
  | [] => []
  | e :: rest => if e.eid = eid then rest else e :: unsubscribeAdd rest eid

/-- Model of `unsubscribeClear` in store.go. -/

def unsubscribeClear (events : List ClearEvent) (eid : Nat) :
    List ClearEvent :=
  match events with
  | [] => []
  | e :: rest => if e.eid = eid then rest else e :: unsubscribeClear rest eid

/-- Model of `AddEvent.Close` in store.go: under the event mutex, a second call
returns immediately (`if e.closed { return }`); the first call marks the
event closed, unregisters it from the store, and closes the channel. -/

def AddEvent.Close (s : Store α) (e : AddEvent α) : Store α × AddEvent α :=
  if e.closed then (s, e)
  else
    ({ s with addEvents := unsubscribeAdd s.addEvents e.eid },
     { e with closed := true, chClosed := true })

/-- Model of `ClearEvent.Close` in store.go. -/

def ClearEvent.Close (s : Store α) (e : ClearEvent) : Store α × ClearEvent :=
  if e.closed then (s, e)
  else
    ({ s with clearEvents := unsubscribeClear s.clearEvents e.eid },
     { e with closed := true, chClosed := true })

/-! ## Manager and Monitor (manager.go, monitor.go) -/

/-- Model of `Monitor` in monitor.go; `store = none` models the nil pointer of a
monitor that has not been attached to a Manager. The view-rendering fields
are irrelevant to the store semantics and omitted. -/

structure Monitor (α : Type) where
  Name : String
  DisplayName : String
  MaxRecords : Int
  Icon : String
  store : Option (Store α)
deriving DecidableEq

/-- Go map assignment `m.monitorMap[name] = monitor` on an association
list: replace the binding if the key is present, append it otherwise. -/

def mapInsert (m : List (String × Monitor α)) (k : String)
    (v : Monitor α) : List (String × Monitor α) :=
  match m with
  | [] => [(k, v)]
  | (k0, v0) :: rest =>
    if k0 = k then (k, v) :: rest else (k0, v0) :: mapInsert rest k v

/-- Go map lookup `m.monitorMap[name]`. -/

def mapLookup (m : List (String × Monitor α)) (k : String) :
    Option (Monitor α) :=
  match m with
  | [] => none
  | (k0, v0) :: rest => if k0 = k then some v0 else mapLookup rest k

/-- Model of `Manager` in manager.go: the ordered slice and the name-keyed map. -/

structure Manager (α : Type) where
  monitors : List (Monitor α)
  monitorMap : List (String × Monitor α)
deriving DecidableEq

/-- Model of `New` in manager.go. -/

def Manager.New (α : Type) : Manager α :=
  { monitors := [], monitorMap := [] }

/-- Model of `Manager.AddMonitor` in manager.go: initialize the monitor private
store from its `MaxRecords`, overwrite the map entry under its name, and
append it to the ordered slice. -/

def Manager.AddMonitor (m : Manager α) (monitor : Monitor α) : Manager α :=
  let monitor1 := { monitor with store := some (NewStore α monitor.MaxRecords) }
  { monitors := m.monitors ++ [monitor1],
    monitorMap := mapInsert m.monitorMap monitor1.Name monitor1 }

/-- Model of `Manager.Monitors` in manager.go: the ordered slice. -/

def Manager.Monitors (m : Manager α) : List (Monitor α) := m.monitors

/-- Model of `Monitor.Write` in monitor.go: a no-op when the store is nil (the
monitor is not connected to a Manager), otherwise delegate to `Store.Add`.
The Go method returns no value; the updated monitor is the state produced
by the call, and `none` only models `Store.Add` running out of modelled
clock readings. -/

def Monitor.Write (m : Monitor α) (payload : α) (clock : List Int) :
    Option (Monitor α) :=
  match m.store with
  | none => some m
  | some st =>
    match st.Add payload clock with
    | none => none
    | some (st1, _, _) => some { m with store := some st1 }

/-! ## Store invariant -/

/-- Store well-formedness: positive capacity, size within capacity, the
order list strictly ascending by ID, the map key set tracking exactly the
order list, every retained ID positive and not above the value the embedded
generator last emitted, and the generator invariant. All of it holds for
`NewStore` and is preserved by every operation. -/

def StoreWF (s : Store α) : Prop :=
  0 < s.maxRecords ∧
  s.order.length ≤ s.maxRecords ∧
  List.Pairwise (fun a b => a.id < b.id) s.order ∧
  s.index = s.order.map (fun e => e.id) ∧
  (∀ e ∈ s.order, 0 < e.id ∧ e.id ≤ emittedVal s.gen) ∧
  GenInv s.gen

instance [DecidableEq α] (s : Store α) : Decidable (StoreWF s) := by
  unfold StoreWF; infer_instance

/-! ## Concrete instances used by witnesses and counterexamples -/

/-- Concrete store at capacity, used to instantiate the capacity theorem. -/

def c1Store : Store Nat :=
  { maxRecords := 1, gen := { lastTimestamp := 0, sequence := 1 },
    order := [{ id := 1, payload := 0 }], index := [1],
    addEvents := [], clearEvents := [] }

/-- The store produced by adding one more entry to `c1Store`. -/

def c1Out : Store Nat :=
  { maxRecords := 1, gen := { lastTimestamp := 5, sequence := 0 },
    order := [{ id := 1310720, payload := 0 }], index := [1310720],
    addEvents := [], clearEvents := [] }

/-- Concrete well-formed store with two retained entries. -/

def sampleStore : Store Nat :=
  { maxRecords := 3, gen := { lastTimestamp := 0, sequence := 2 },
    order := [{ id := 1, payload := 10 }, { id := 2, payload := 20 }],
    index := [1, 2], addEvents := [], clearEvents := [] }

/-- An empty Add subscription, as created by `NewAddEvent` in store.go. -/

def c7Event : AddEvent Nat :=
  { eid := 0, ch := [], chClosed := false, closed := false }

/-- Fresh store with one live Add subscriber. -/

def c7Store : Store Nat :=
  { maxRecords := 3, gen := NewIDGenerator, order := [], index := [],
    addEvents := [c7Event], clearEvents := [] }

/-- The entry produced by adding payload 0 to `c7Store` at clock reading 5. -/

def c7Entry : DataEntry Nat := { id := 1310720, payload := 0 }

/-- The store after that `Add`: the subscriber received the entry. -/

def c7Out : Store Nat :=
  { maxRecords := 3, gen := { lastTimestamp := 5, sequence := 0 },
    order := [c7Entry], index := [1310720],
    addEvents := [{ eid := 0, ch := [c7Entry], chClosed := false,
                    closed := false }],
    clearEvents := [] }

/-- A monitor that has not been attached to a Manager: its store is nil. -/

def monA : Monitor Nat :=
  { Name := "a", DisplayName := "A", MaxRecords := 2, Icon := "",
    store := none }

/-- A second monitor reusing the same name. -/

def monB : Monitor Nat :=
  { Name := "a", DisplayName := "B", MaxRecords := 0, Icon := "",
    store := none }

/-- A fresh store (generator at the initial state). -/

def c5StoreA : Store Nat :=
  { maxRecords := 3, gen := { lastTimestamp := 0, sequence := 0 },
    order := [], index := [], addEvents := [], clearEvents := [] }

/-- The same store except that its generator has already reached
millisecond 5. -/

def c5StoreB : Store Nat :=
  { maxRecords := 3, gen := { lastTimestamp := 5, sequence := 0 },
    order := [], index := [], addEvents := [], clearEvents := [] }

/-! ### Generator lemmas -/

theorem toInt64_eq (n : Int) (h0 : 0 ≤ n) (h1 : n < 9223372036854775808) :
    toInt64 n = n := by
  unfold toInt64
  omega

theorem land_natCast (a b : Nat) :
    Int.land (a : Int) (b : Int) = ((a &&& b : Nat) : Int) := rfl

theorem lor_natCast (a b : Nat) :
    Int.lor (a : Int) (b : Int) = ((a ||| b : Nat) : Int) := rfl

theorem maxSequence_eq : maxSequence = 262143 := by
  norm_num [maxSequence, sequenceBits]

theorem land_mask (s : Int) (h0 : 0 ≤ s) (h1 : s ≤ maxSequence) :
    Int.land (s + 1) maxSequence = if s = maxSequence then 0 else s + 1 := by
  rw [maxSequence_eq] at h1 ⊢
  obtain ⟨m, rfl⟩ := Int.eq_ofNat_of_zero_le h0
  have h2 : ((m : Int)) + 1 = ((m + 1 : Nat) : Int) := by push_cast; ring
  have h3 : (262143 : Int) = ((262143 : Nat) : Int) := by norm_num
  rw [h2, h3, land_natCast]
  have h4 : (262143 : Nat) = 2 ^ 18 - 1 := by norm_num
  have h5 : (m + 1) &&& 262143 = (m + 1) % 262144 := by
    rw [h4, Nat.and_pow_two_sub_one_eq_mod]
  rw [h5]
  have hm : m ≤ 262143 := by exact_mod_cast h1
  by_cases hme : m = 262143
  · subst hme; norm_num
  · rw [if_neg (by exact_mod_cast fun h => hme (by exact_mod_cast h))]
    have hlt : (m + 1) % 262144 = m + 1 := Nat.mod_eq_of_lt (by omega)
    rw [hlt]

theorem packId_eq (ts sq : Int) (h0 : 0 ≤ ts) (h1 : ts < 35184372088832)
    (h2 : 0 ≤ sq) (h3 : sq ≤ maxSequence) :
    packId ts sq = ts * 262144 + sq := by
  rw [maxSequence_eq] at h3
  unfold packId
  have hp : (2 : Int) ^ timestampShift = 262144 := by
    norm_num [timestampShift, sequenceBits]
  rw [hp]
  have hb : ts * 262144 < 9223372036854775808 := by nlinarith
  rw [toInt64_eq _ (by positivity) hb]
  obtain ⟨m, rfl⟩ := Int.eq_ofNat_of_zero_le h0
  obtain ⟨n, rfl⟩ := Int.eq_ofNat_of_zero_le h2
  have hm : ((m : Int)) * 262144 = ((m * 262144 : Nat) : Int) := by
    push_cast; ring
  rw [hm, lor_natCast]
  have hn : n < 2 ^ 18 := by
    have hn1 : n ≤ 262143 := by exact_mod_cast h3
    omega
  have hkey := Nat.mul_add_lt_is_or hn m
  have h218 : (2 : Nat) ^ 18 = 262144 := by norm_num
  rw [h218] at hkey
  have hor : m * 262144 ||| n = m * 262144 + n := by
    rw [Nat.mul_comm m 262144]
    exact hkey.symm
  rw [hor]
  push_cast
  ring

theorem waitNextMillis_spec (L : Int) (clk : List Int) (t : Int)
    (rest : List Int) (h : waitNextMillis L clk = some (t, rest)) :
    L < t ∧ t ∈ clk ∧ ∀ x ∈ rest, x ∈ clk := by
  induction clk with
  | nil => simp [waitNextMillis] at h
  | cons a as ih =>
    unfold waitNextMillis at h
    by_cases hc : a ≤ L
    · rw [if_pos hc] at h
      have h2 := ih h
      exact ⟨h2.1, List.mem_cons_of_mem _ h2.2.1,
        fun x hx => List.mem_cons_of_mem _ (h2.2.2 x hx)⟩
    · rw [if_neg hc] at h
      have ht : a = t := congrArg Prod.fst (Option.some.inj h)
      have hr : as = rest := congrArg Prod.snd (Option.some.inj h)
      subst ht; subst hr
      exact ⟨by omega, List.mem_cons_self _ _,
        fun x hx => List.mem_cons_of_mem _ hx⟩

theorem Generate_spec (g : IDGenerator) (clk : List Int) (id : Int)
    (g' : IDGenerator) (rest : List Int)
    (hInv : GenInv g) (hclk : ∀ t ∈ clk, t < 35184372088832)
    (h : IDGenerator.Generate g clk = some (id, g', rest)) :
    GenInv g' ∧ id = emittedVal g' ∧ emittedVal g < emittedVal g' := by
  obtain ⟨hts0, htsB, hsq0, hsqM⟩ := hInv
  have hsqM' : g.sequence ≤ 262143 := by rw [maxSequence_eq] at hsqM; exact hsqM
  cases clk with
  | nil => simp [IDGenerator.Generate] at h
  | cons t0 r =>
    simp only [IDGenerator.Generate] at h
    cases hs : (if t0 < g.lastTimestamp
                then waitNextMillis (g.lastTimestamp - 1) r
                else some (t0, r)) with
    | none => rw [hs] at h; simp at h
    | some p =>
      obtain ⟨ts1, r1⟩ := p
      rw [hs] at h
      dsimp only at h
      have hfacts : g.lastTimestamp ≤ ts1 ∧ ts1 < 35184372088832 ∧
          ∀ t ∈ r1, t < 35184372088832 := by
        by_cases hb : t0 < g.lastTimestamp
        · rw [if_pos hb] at hs
          have hw := waitNextMillis_spec _ _ _ _ hs
          refine ⟨by omega, hclk _ (List.mem_cons_of_mem _ hw.2.1), ?_⟩
          intro t ht
          exact hclk _ (List.mem_cons_of_mem _ (hw.2.2 t ht))
        · rw [if_neg hb] at hs
          have h1 : t0 = ts1 := congrArg Prod.fst (Option.some.inj hs)
          have h2 : r = r1 := congrArg Prod.snd (Option.some.inj hs)
          subst h1; subst h2
          exact ⟨by omega, hclk _ (List.mem_cons_self _ _),
            fun t ht => hclk _ (List.mem_cons_of_mem _ ht)⟩
      obtain ⟨hts1, hts1B, hr1B⟩ := hfacts
      rw [land_mask g.sequence hsq0 hsqM] at h
      by_cases he : ts1 = g.lastTimestamp
      · rw [if_pos he] at h
        by_cases hseq : g.sequence = maxSequence
        · rw [if_pos hseq] at h
          rw [if_pos rfl] at h
          cases hw : waitNextMillis ts1 r1 with
          | none => rw [hw] at h; simp at h
          | some q =>
            obtain ⟨ts2, r2⟩ := q
            rw [hw] at h
            have hws := waitNextMillis_spec _ _ _ _ hw
            have hid : packId ts2 0 = id :=
              congrArg Prod.fst (Option.some.inj h)
            have hg : ({ lastTimestamp := ts2, sequence := 0 } : IDGenerator)
                = g' := congrArg (fun x => x.2.1) (Option.some.inj h)
            have hts2B : ts2 < 35184372088832 := hr1B _ hws.2.1
            have hts2pos : 0 ≤ ts2 := by omega
            subst hg
            refine ⟨⟨hts2pos, hts2B, le_refl 0,
              show (0:Int) ≤ maxSequence by rw [maxSequence_eq]; omega⟩,
              ?_, ?_⟩
            · rw [← hid, packId_eq ts2 0 hts2pos hts2B (le_refl 0)
                (by rw [maxSequence_eq]; omega)]
              simp [emittedVal]
            · simp only [emittedVal]
              have : g.lastTimestamp < ts2 := by omega
              omega
        · rw [if_neg hseq] at h
          have hne : ¬ (g.sequence + 1 = 0) := by omega
          rw [if_neg hne] at h
          have hid : packId ts1 (g.sequence + 1) = id :=
            congrArg Prod.fst (Option.some.inj h)
          have hg : ({ lastTimestamp := ts1, sequence := g.sequence + 1 }
              : IDGenerator) = g' :=
            congrArg (fun x => x.2.1) (Option.some.inj h)
          have hseqlt : g.sequence < maxSequence := lt_of_le_of_ne hsqM hseq
          have hseqlt' : g.sequence + 1 ≤ 262143 := by
            rw [maxSequence_eq] at hseqlt; omega
          subst hg
          refine ⟨⟨show (0:Int) ≤ ts1 by omega, hts1B,
            show (0:Int) ≤ g.sequence + 1 by omega,
            show g.sequence + 1 ≤ maxSequence by rw [maxSequence_eq]; omega⟩,
            ?_, ?_⟩
          · rw [← hid, packId_eq ts1 (g.sequence + 1) (by omega) hts1B
              (by omega) (by rw [maxSequence_eq]; exact hseqlt')]
            simp [emittedVal, he]
          · simp only [emittedVal]
            rw [he] at hts1 ⊢
            omega
      · rw [if_neg he] at h
        have hid : packId ts1 0 = id :=
          congrArg Prod.fst (Option.some.inj h)
        have hg : ({ lastTimestamp := ts1, sequence := 0 } : IDGenerator)
            = g' := congrArg (fun x => x.2.1) (Option.some.inj h)
        have hgt : g.lastTimestamp < ts1 := lt_of_le_of_ne hts1 (Ne.symm he)
        subst hg
        refine ⟨⟨show (0:Int) ≤ ts1 by omega, hts1B, le_refl 0,
          show (0:Int) ≤ maxSequence by rw [maxSequence_eq]; omega⟩,
          ?_, ?_⟩
        · rw [← hid, packId_eq ts1 0 (by omega) hts1B (le_refl 0)
            (by rw [maxSequence_eq]; omega)]
          simp [emittedVal]
        · simp only [emittedVal]
          omega

theorem generateRun_spec (clks : List (List Int)) (g : IDGenerator)
    (ids : List Int) (g' : IDGenerator)
    (hInv : GenInv g)
    (hclk : ∀ c ∈ clks, ∀ t ∈ c, t < 35184372088832)
    (h : generateRun g clks = some (ids, g')) :
    GenInv g' ∧ List.Pairwise (fun a b => a < b) ids ∧
      emittedVal g ≤ emittedVal g' ∧
      ∀ i ∈ ids, emittedVal g < i ∧ i ≤ emittedVal g' := by
  induction clks generalizing g ids with
  | nil =>
    simp only [generateRun, Option.some.injEq, Prod.mk.injEq] at h
    obtain ⟨rfl, rfl⟩ := h
    exact ⟨hInv, List.Pairwise.nil, le_refl _, by simp⟩
  | cons clk rest ih =>
    simp only [generateRun] at h
    cases hg : IDGenerator.Generate g clk with
    | none => rw [hg] at h; simp at h
    | some p =>
      obtain ⟨id, g1, r⟩ := p
      rw [hg] at h
      dsimp only at h
      cases hrun : generateRun g1 rest with
      | none => rw [hrun] at h; simp at h
      | some q =>
        obtain ⟨ids1, g2⟩ := q
        rw [hrun] at h
        simp only [Option.some.injEq, Prod.mk.injEq] at h
        obtain ⟨rfl, rfl⟩ := h
        have hstep := Generate_spec g clk id g1 r hInv
          (hclk clk (List.mem_cons_self _ _)) hg
        have hih := ih g1 ids1 hstep.1
          (fun c hc => hclk c (List.mem_cons_of_mem _ hc)) hrun
        have hidval : id = emittedVal g1 := hstep.2.1
        have hlt : emittedVal g < emittedVal g1 := hstep.2.2
        refine ⟨hih.1, ?_, by omega, ?_⟩
        · refine List.Pairwise.cons ?_ hih.2.1
          intro i hi
          have := (hih.2.2.2 i hi).1
          omega
        · intro i hi
          rcases List.mem_cons.mp hi with rfl | hi1
          · have := hih.2.2.1
            constructor
            · omega
            · omega
          · have := hih.2.2.2 i hi1
            constructor
            · omega
            · omega

/-! ### Store lemmas -/

theorem findFirstGreater_eq_filter (c : Int) (l : List (DataEntry α))
    (hl : List.Pairwise (fun a b => a.id < b.id) l) :
    findFirstGreater c l = l.filter (fun e => decide (c < e.id)) := by
  induction l with
  | nil => rfl
  | cons e rest ih =>
    rw [List.pairwise_cons] at hl
    by_cases hc : c < e.id
    · rw [findFirstGreater, if_pos hc,
        List.filter_cons_of_pos (by simpa using hc)]
      congr 1
      symm
      rw [List.filter_eq_self]
      intro a ha
      simp only [decide_eq_true_eq]
      have := hl.1 a ha
      omega
    · rw [findFirstGreater, if_neg hc,
        List.filter_cons_of_neg (by simpa using hc)]
      exact ih hl.2

theorem suffixAfterId_eq_filter (c : Int) (l : List (DataEntry α))
    (hl : List.Pairwise (fun a b => a.id < b.id) l)
    (hc : c ∈ l.map (fun e => e.id)) :
    suffixAfterId c l = l.filter (fun e => decide (c < e.id)) := by
  induction l with
  | nil => simp at hc
  | cons e rest ih =>
    rw [List.pairwise_cons] at hl
    simp only [List.map_cons, List.mem_cons] at hc
    rcases hc with hc | hc
    · rw [suffixAfterId, if_pos hc.symm,
        List.filter_cons_of_neg (by simp; omega)]
      symm
      rw [List.filter_eq_self]
      intro a ha
      simp only [decide_eq_true_eq]
      have := hl.1 a ha
      omega
    · obtain ⟨a, ha, haid⟩ := List.mem_map.mp hc
      have hgt : e.id < c := haid ▸ hl.1 a ha
      rw [suffixAfterId, if_neg (by omega),
        List.filter_cons_of_neg (by simp; omega)]
      exact ih hl.2 hc

theorem insertKey_of_not_mem (l : List Int) (id : Int) (h : id ∉ l) :
    insertKey l id = l ++ [id] := by
  rw [insertKey, if_neg h]

theorem addRecord_spec (s : Store α) (id : Int) (p : α)
    (hcap : 0 < s.maxRecords)
    (hlen : s.order.length ≤ s.maxRecords)
    (hsorted : List.Pairwise (fun a b => a.id < b.id) s.order)
    (hindex : s.index = s.order.map (fun e => e.id))
    (hfresh : ∀ e ∈ s.order, e.id < id) :
    (s.order.length < s.maxRecords →
      s.addRecord id p =
        { s with order := s.order ++ [{ id := id, payload := p }],
                 index := s.index ++ [id] }) ∧
    (s.order.length = s.maxRecords →
      s.addRecord id p =
        { s with order := s.order.drop 1 ++ [{ id := id, payload := p }],
                 index := s.index.drop 1 ++ [id] }) := by
  have hnotmem : id ∉ s.index := by
    rw [hindex]
    intro hmem
    obtain ⟨e, he, heid⟩ := List.mem_map.mp hmem
    have := hfresh e he
    omega
  have hikey : insertKey s.index id = s.index ++ [id] :=
    insertKey_of_not_mem _ _ hnotmem
  constructor
  · intro hlt
    rw [Store.addRecord]
    simp only [hikey]
    rw [if_neg (by simp [List.length_append]; omega)]
  · intro heq
    cases horder : s.order with
    | nil =>
      rw [horder] at heq
      simp at heq
      omega
    | cons o os =>
      rw [Store.addRecord]
      simp only [hikey, horder, List.cons_append]
      rw [if_pos (by
        rw [horder] at heq
        simp only [List.length_cons, List.length_append] at heq ⊢
        omega)]
      have hfilter : (s.index ++ [id]).filter (fun k => decide (k ≠ o.id))
          = s.index.drop 1 ++ [id] := by
        rw [hindex, horder]
        simp only [List.map_cons, List.cons_append, List.filter_cons]
        rw [if_neg (by simp)]
        rw [List.drop_one, List.tail_cons]
        rw [List.filter_append]
        have hsorted' := hsorted
        rw [horder, List.pairwise_cons] at hsorted'
        have h1 : (os.map (fun e => e.id)).filter
            (fun k => decide (k ≠ o.id)) = os.map (fun e => e.id) := by
          rw [List.filter_eq_self]
          intro a ha
          obtain ⟨e, he, heid⟩ := List.mem_map.mp ha
          have := hsorted'.1 e he
          simp only [decide_eq_true_eq]
          omega
        have h2 : ([id] : List Int).filter (fun k => decide (k ≠ o.id))
            = [id] := by
          rw [List.filter_eq_self]
          intro a ha
          simp only [List.mem_singleton] at ha
          subst ha
          have := hfresh o (by rw [horder]; exact List.mem_cons_self _ _)
          simp only [decide_eq_true_eq]
          omega
        rw [h1, h2]
      rw [hfilter]
      have hdrop : (o :: os).drop 1 = os := by simp
      simp only [horder, hdrop]

theorem emittedVal_nonneg (g : IDGenerator) (h : GenInv g) :
    0 ≤ emittedVal g := by
  obtain ⟨h1, h2, h3, h4⟩ := h
  simp only [emittedVal]
  nlinarith

/-- C1: after any `Add` completes the number of retained entries is at most
the capacity, and whenever an `Add` would exceed the capacity it is exactly
the oldest entry (the front of the insertion order, the one with the
smallest id) that is removed from both the order list and the id index.
Well-formedness is preserved, so by induction the statement covers every
sequence of `Add` calls on every store. -/

theorem Add_capacity_evicts_oldest (s : Store α) (p : α) (clock : List Int)
    (s' : Store α) (en : DataEntry α) (rest : List Int)
    (hWF : StoreWF s) (hclk : ∀ t ∈ clock, t < 35184372088832)
    (h : s.Add p clock = some (s', en, rest)) :
    StoreWF s' ∧ s'.Len ≤ s.maxRecords ∧ s'.maxRecords = s.maxRecords ∧
    (s.order.length < s.maxRecords →
      s'.order = s.order ++ [en] ∧ s'.index = s.index ++ [en.id]) ∧
    (s.order.length = s.maxRecords →
      s'.order = s.order.drop 1 ++ [en] ∧
      s'.index = s.index.drop 1 ++ [en.id] ∧
      ∀ o ∈ s.order.head?, (∀ e ∈ s.order, o.id ≤ e.id) ∧
        o.id ∉ s'.index ∧ o ∉ s'.order) := by
  obtain ⟨hcap, hlen, hsorted, hindex, hids, hgeninv⟩ := hWF
  rw [Store.Add] at h
  cases hg : s.gen.Generate clock with
  | none => rw [hg] at h; simp at h
  | some q =>
    obtain ⟨id, g1, r⟩ := q
    rw [hg] at h
    dsimp only at h
    simp only [Option.some.injEq, Prod.mk.injEq] at h
    obtain ⟨hs', hen, hrest⟩ := h
    subst hs'
    subst hen
    subst hrest
    have hgen := Generate_spec s.gen clock id g1 r hgeninv hclk hg
    obtain ⟨hgi1, hidval, hlt⟩ := hgen
    have hfresh : ∀ e ∈ s.order, e.id < id := by
      intro e he
      have := (hids e he).2
      omega
    have hpos : 0 < id := by
      have := emittedVal_nonneg s.gen hgeninv
      omega
    have hrec := addRecord_spec ({ s with gen := g1 }) id p hcap hlen
      hsorted hindex hfresh
    dsimp only at hrec
    by_cases hcase : s.order.length < s.maxRecords
    · have heq := hrec.1 hcase
      rw [heq]
      refine ⟨?_, ?_, ?_, ?_, ?_⟩
      · refine ⟨hcap, ?_, ?_, ?_, ?_, hgi1⟩
        · dsimp only
          simp only [List.length_append, List.length_cons, List.length_nil]
          omega
        · dsimp only
          rw [List.pairwise_append]
          refine ⟨hsorted, by simp, ?_⟩
          intro a ha b hb
          simp only [List.mem_singleton] at hb
          subst hb
          exact hfresh a ha
        · dsimp only
          simp [hindex]
        · dsimp only
          intro e he
          rw [List.mem_append] at he
          rcases he with he | he
          · have h1 := hids e he
            omega
          · simp only [List.mem_singleton] at he
            subst he
            dsimp only
            omega
      · dsimp only [Store.Len]
        simp only [List.length_append, List.length_cons, List.length_nil]
        omega
      · rfl
      · intro hx
        constructor
        · rfl
        · rfl
      · intro hx
        exact absurd hx (by omega)
    · have hlencase : s.order.length = s.maxRecords := by omega
      have heq := hrec.2 hlencase
      rw [heq]
      cases horder : s.order with
      | nil =>
        rw [horder] at hlencase
        simp only [List.length_nil] at hlencase
        omega
      | cons o os =>
        have hsorted' : List.Pairwise (fun a b => a.id < b.id) (o :: os) :=
          horder ▸ hsorted
        have hmapdrop : s.index.drop 1 = os.map (fun e => e.id) := by
          rw [hindex, horder]
          simp
        have hoid : ∀ e ∈ os, o.id < e.id :=
          (List.pairwise_cons.mp hsorted').1
        have hmemord : ∀ a ∈ os, a ∈ s.order := by
          intro a ha
          rw [horder]
          exact List.mem_cons_of_mem _ ha
        have homem : o ∈ s.order := by
          rw [horder]
          exact List.mem_cons_self _ _
        have hofresh : o.id < id := hfresh o homem
        have hlencnt : os.length + 1 = s.maxRecords := by
          rw [horder] at hlencase
          simpa using hlencase
        refine ⟨?_, ?_, ?_, ?_, ?_⟩
        · refine ⟨hcap, ?_, ?_, ?_, ?_, hgi1⟩
          · dsimp only
            simp only [List.drop_succ_cons, List.drop_zero, List.length_append,
              List.length_cons, List.length_nil]
            omega
          · dsimp only
            simp only [List.drop_succ_cons, List.drop_zero]
            rw [List.pairwise_append]
            refine ⟨(List.pairwise_cons.mp hsorted').2, by simp, ?_⟩
            intro a ha b hb
            simp only [List.mem_singleton] at hb
            subst hb
            exact hfresh a (hmemord a ha)
          · dsimp only
            simp only [List.drop_succ_cons, List.drop_zero]
            rw [hmapdrop]
            simp
          · dsimp only
            simp only [List.drop_succ_cons, List.drop_zero]
            intro e he
            rw [List.mem_append] at he
            rcases he with he | he
            · have h1 := hids e (hmemord e he)
              omega
            · simp only [List.mem_singleton] at he
              subst he
              dsimp only
              omega
        · dsimp only [Store.Len]
          simp only [List.drop_succ_cons, List.drop_zero, List.length_append,
            List.length_cons, List.length_nil]
          omega
        · rfl
        · intro hx
          exact absurd hx (by simp only [List.length_cons]; omega)
        · intro hx
          refine ⟨rfl, rfl, ?_⟩
          intro ohd hohd
          simp only [List.head?_cons, Option.mem_def, Option.some.injEq] at hohd
          subst hohd
          refine ⟨?_, ?_, ?_⟩
          · intro e he
            rw [List.mem_cons] at he
            rcases he with rfl | he
            · omega
            · have := hoid e he
              omega
          · dsimp only
            rw [hmapdrop]
            intro hmem
            rw [List.mem_append] at hmem
            rcases hmem with hmem | hmem
            · obtain ⟨e, he, heid⟩ := List.mem_map.mp hmem
              have := hoid e he
              omega
            · simp only [List.mem_singleton] at hmem
              omega
          · dsimp only
            simp only [List.drop_succ_cons, List.drop_zero]
            intro hmem
            rw [List.mem_append] at hmem
            rcases hmem with hmem | hmem
            · have := hoid _ hmem
              omega
            · simp only [List.mem_singleton] at hmem
              have hoeq : o.id = id := by rw [hmem]
              omega

/-- C2: on a single generator instance every `Generate` call returns a value
strictly greater than every value it previously returned (never a duplicate,
never decreasing) — covering the same-millisecond sequence increment, the
sequence overflow (wait for the next millisecond, sequence reset to 0), and
the backward clock (wait until the clock catches up) — and every packed
result `(timestamp << sequenceBits) | sequence` is positive. The ids of a
run are strictly increasing and all exceed the packed value of the starting
state, within the 45-bit timestamp envelope of the design. -/

theorem Generate_monotone (g : IDGenerator) (clks : List (List Int))
    (ids : List Int) (g' : IDGenerator)
    (hInv : GenInv g) (hclk : ∀ c ∈ clks, ∀ t ∈ c, t < 35184372088832)
    (h : generateRun g clks = some (ids, g')) :
    List.Pairwise (fun a b => a < b) ids ∧
    ∀ i ∈ ids, 0 < i ∧ emittedVal g < i := by
  have hh := generateRun_spec clks g ids g' hInv hclk h
  refine ⟨hh.2.1, ?_⟩
  intro i hi
  have h1 := hh.2.2.2 i hi
  have h0 := emittedVal_nonneg g hInv
  exact ⟨by omega, h1.1⟩

theorem Generate_monotone_witness :
    List.Pairwise (fun a b => a < b) [(1 : Int), 2, 786432] ∧
    ∀ i ∈ [(1 : Int), 2, 786432], 0 < i ∧ emittedVal NewIDGenerator < i :=
  Generate_monotone NewIDGenerator [[0], [0], [3]] [1, 2, 786432]
    { lastTimestamp := 3, sequence := 0 } (by decide) (by decide) (by decide)

theorem Add_capacity_evicts_oldest_witness :
    c1Out.Len ≤ c1Store.maxRecords :=
  (Add_capacity_evicts_oldest c1Store 0 [5] c1Out
    { id := 1310720, payload := 0 } []
    (by decide) (by decide) (by decide)).2.1

/-- C3: for every well-formed store state and every cursor, `GetSince`
returns exactly the retained entries with id strictly greater than the
cursor, in ascending id order; cursor 0 returns all retained entries; an
evicted or otherwise absent cursor is handled by the linear scan and the
result is the same filter, never an error and never an entry with id at or
below the cursor; the cursor at the most recent id yields the empty
sequence (last conjunct, with the most recent id bounding all ids). -/

theorem GetSince_correct (s : Store α) (c : Int) (h : StoreWF s) :
    s.GetSince c = s.order.filter (fun e => decide (c < e.id)) ∧
    List.Pairwise (fun a b => a.id < b.id) (s.GetSince c) ∧
    s.GetSince 0 = s.order ∧
    ((∀ e ∈ s.order, e.id ≤ c) → s.GetSince c = []) := by
  obtain ⟨hcap, hlen, hsorted, hindex, hids, hgen⟩ := h
  have hmain : s.GetSince c = s.order.filter (fun e => decide (c < e.id)) := by
    rw [Store.GetSince]
    by_cases h0 : c = 0
    · subst h0
      rw [if_pos rfl]
      symm
      rw [List.filter_eq_self]
      intro a ha
      simp only [decide_eq_true_eq]
      exact (hids a ha).1
    · rw [if_neg h0]
      by_cases hmem : c ∈ s.index
      · rw [if_pos hmem]
        exact suffixAfterId_eq_filter c s.order hsorted (hindex ▸ hmem)
      · rw [if_neg hmem]
        exact findFirstGreater_eq_filter c s.order hsorted
  refine ⟨hmain, ?_, ?_, ?_⟩
  · rw [hmain]
    exact List.Pairwise.sublist (List.filter_sublist _) hsorted
  · rw [Store.GetSince, if_pos rfl]
  · intro hall
    rw [hmain, List.filter_eq_nil_iff]
    intro a ha
    simp only [decide_eq_true_eq]
    have := hall a ha
    omega

theorem GetSince_correct_witness :
    sampleStore.GetSince 1
      = sampleStore.order.filter (fun e => decide ((1 : Int) < e.id)) :=
  (GetSince_correct sampleStore 1 (by decide)).1

/-- C4: for every well-formed store state and integer n, `GetLatest n`
returns up to n most recently added entries in strictly descending id
order; n at or above the current size returns all entries (newest first);
n at or below zero returns the empty sequence; the operation is a pure
function of the store, so the store state is unchanged. -/

theorem GetLatest_correct (s : Store α) (n : Int) (h : StoreWF s) :
    List.Pairwise (fun a b => b.id < a.id) (s.GetLatest n) ∧
    (n ≤ 0 → s.GetLatest n = []) ∧
    ((s.order.length : Int) ≤ n → s.GetLatest n = s.order.reverse) ∧
    (0 < n →
      s.GetLatest n = (s.order.drop (s.order.length - n.toNat)).reverse) := by
  obtain ⟨hcap, hlen, hsorted, hindex, hids, hgen⟩ := h
  refine ⟨?_, ?_, ?_, ?_⟩
  · rw [Store.GetLatest]
    by_cases hn : n ≤ 0
    · rw [if_pos hn]
      exact List.Pairwise.nil
    · rw [if_neg hn]
      refine List.Pairwise.sublist (List.take_sublist _ _) ?_
      rw [List.pairwise_reverse]
      exact hsorted
  · intro hn
    rw [Store.GetLatest, if_pos hn]
  · intro hn
    by_cases hn0 : n ≤ 0
    · have hlen0 : s.order.length = 0 := by omega
      have hnil : s.order = [] := List.length_eq_zero.mp hlen0
      rw [Store.GetLatest, if_pos hn0, hnil]
      simp
    · rw [Store.GetLatest, if_neg hn0]
      apply List.take_of_length_le
      rw [List.length_reverse]
      split
      · omega
      · omega
  · intro hn
    rw [Store.GetLatest, if_neg (by omega)]
    have harg : s.order.length
        - (if ((s.order.length : Int)) < n
           then (s.order.length : Int) else n).toNat
        = s.order.length - n.toNat := by
      split
      · omega
      · omega
    rw [List.take_reverse, harg]

theorem GetLatest_correct_witness :
    List.Pairwise (fun a b => b.id < a.id) (sampleStore.GetLatest 5) :=
  (GetLatest_correct sampleStore 5 (by decide)).1

/-- C6: after `Clear` the store is empty — `Len` is 0, `GetSince` of any
cursor is empty, the order list and the id index are emptied together, the
embedded generator is replaced by a fresh `NewIDGenerator` — and every
clear subscriber with buffer space receives the clear signal (the
notification runs outside the lock in the Go code; the functional effect
on the subscriber buffers is captured by the last conjunct). -/

theorem Clear_resets (s : Store α) (c : Int) :
    (s.Clear).Len = 0 ∧ (s.Clear).order = [] ∧ (s.Clear).index = [] ∧
    (s.Clear).GetSince c = [] ∧ (s.Clear).gen = NewIDGenerator ∧
    List.Forall₂ (fun before after =>
        after = if before.ch.length < 1
                then { before with ch := before.ch ++ [()] } else before)
      s.clearEvents (s.Clear).clearEvents := by
  refine ⟨rfl, rfl, rfl, ?_, rfl, ?_⟩
  · rw [Store.GetSince]
    by_cases h0 : c = 0
    · rw [if_pos h0]
      rfl
    · rw [if_neg h0]
      rw [if_neg (by intro hmem; simp [Store.Clear] at hmem)]
      rfl
  · show List.Forall₂ _ s.clearEvents (notifyClearEvents s.clearEvents)
    rw [notifyClearEvents, List.forall₂_map_right_iff]
    rw [List.forall₂_same]
    intro x hx
    rfl

/-- C7: on each successful `Add`, every Add subscriber whose bounded buffer
(capacity 10) has free space receives exactly one notification carrying the
new entry (the buffer is extended by exactly that entry), and every
subscriber whose buffer is full has the notification dropped (its buffer is
unchanged), without affecting the other subscribers — the subscriber list is
transformed pointwise — and the drop is never surfaced as an error (`Add`
still succeeds with the same result). -/

theorem Add_notifies_subscribers (s : Store α) (p : α) (clock : List Int)
    (s' : Store α) (en : DataEntry α) (rest : List Int)
    (h : s.Add p clock = some (s', en, rest)) :
    List.Forall₂ (fun before after =>
        (before.ch.length < 10 →
          after = { before with ch := before.ch ++ [en] }) ∧
        (¬ before.ch.length < 10 → after = before))
      s.addEvents s'.addEvents := by
  rw [Store.Add] at h
  cases hg : s.gen.Generate clock with
  | none => rw [hg] at h; simp at h
  | some q =>
    obtain ⟨id, g1, r⟩ := q
    rw [hg] at h
    dsimp only at h
    simp only [Option.some.injEq, Prod.mk.injEq] at h
    obtain ⟨hs', hen, hrest⟩ := h
    subst hs'
    subst hen
    subst hrest
    have haddev : (Store.addRecord { s with gen := g1 } id p).addEvents
        = s.addEvents := by
      rw [Store.addRecord]
      dsimp only
      split
      · split <;> rfl
      · rfl
    show List.Forall₂ _ s.addEvents
      (notifyAddEvents (Store.addRecord { s with gen := g1 } id p).addEvents
        { id := id, payload := p })
    rw [haddev, notifyAddEvents, List.forall₂_map_right_iff,
      List.forall₂_same]
    intro x hx
    constructor
    · intro h10
      rw [if_pos h10]
    · intro h10
      rw [if_neg h10]

theorem Add_notifies_subscribers_witness :
    List.Forall₂ (fun before after =>
        (before.ch.length < 10 →
          after = { before with ch := before.ch ++ [c7Entry] }) ∧
        (¬ before.ch.length < 10 → after = before))
      c7Store.addEvents c7Out.addEvents :=
  Add_notifies_subscribers c7Store 0 [5] c7Out c7Entry [] (by decide)

/-- C8: closing a subscription handle is idempotent for both event kinds:
the first `Close` marks the handle closed, removes it from the store
subscriber list and closes its channel; applying `Close` again to the
resulting store and handle leaves both exactly as after the first call. -/

theorem Close_idempotent (s : Store α) (e : AddEvent α)
    (s2 : Store α) (e2 : ClearEvent) :
    AddEvent.Close (AddEvent.Close s e).1 (AddEvent.Close s e).2
      = AddEvent.Close s e ∧
    (AddEvent.Close s e).2.closed = true ∧
    (AddEvent.Close s e).1.addEvents
      = (if e.closed then s.addEvents
         else unsubscribeAdd s.addEvents e.eid) ∧
    ClearEvent.Close (ClearEvent.Close s2 e2).1 (ClearEvent.Close s2 e2).2
      = ClearEvent.Close s2 e2 ∧
    (ClearEvent.Close s2 e2).2.closed = true := by
  by_cases hc : e.closed = true
  · by_cases hc2 : e2.closed = true
    · simp [AddEvent.Close, ClearEvent.Close, hc, hc2]
    · simp [AddEvent.Close, ClearEvent.Close, hc, hc2]
  · by_cases hc2 : e2.closed = true
    · simp [AddEvent.Close, ClearEvent.Close, hc, hc2]
    · simp [AddEvent.Close, ClearEvent.Close, hc, hc2]

theorem mapLookup_mapInsert (m : List (String × Monitor α)) (k : String)
    (v : Monitor α) : mapLookup (mapInsert m k v) k = some v := by
  induction m with
  | nil => simp [mapInsert, mapLookup]
  | cons kv rest ih =>
    obtain ⟨k0, v0⟩ := kv
    by_cases hk : k0 = k
    · simp [mapInsert, mapLookup, hk]
    · simp [mapInsert, mapLookup, hk, ih]

/-- C9: registering a second monitor whose name equals an already
registered name overwrites the name-index entry with the newer monitor
while the ordered list keeps both, so `Monitors` enumerates both in
registration order and name lookup resolves to the most recently added
one (both with their stores initialized from their `MaxRecords`). -/

theorem AddMonitor_duplicate_name (mgr : Manager α) (m1 m2 : Monitor α)
    (hname : m1.Name = m2.Name) :
    ((mgr.AddMonitor m1).AddMonitor m2).Monitors
      = mgr.monitors
        ++ [{ m1 with store := some (NewStore α m1.MaxRecords) },
            { m2 with store := some (NewStore α m2.MaxRecords) }] ∧
    mapLookup ((mgr.AddMonitor m1).AddMonitor m2).monitorMap m1.Name
      = some { m2 with store := some (NewStore α m2.MaxRecords) } := by
  constructor
  · show (mgr.monitors
        ++ [{ m1 with store := some (NewStore α m1.MaxRecords) }])
        ++ [{ m2 with store := some (NewStore α m2.MaxRecords) }] = _
    rw [List.append_assoc]
    rfl
  · show mapLookup
      (mapInsert
        (mapInsert mgr.monitorMap m1.Name
          { m1 with store := some (NewStore α m1.MaxRecords) })
        m2.Name { m2 with store := some (NewStore α m2.MaxRecords) })
      m1.Name = _
    rw [hname]
    exact mapLookup_mapInsert _ _ _

theorem AddMonitor_duplicate_name_witness :
    mapLookup (((Manager.New Nat).AddMonitor monA).AddMonitor monB).monitorMap
        monA.Name
      = some { monB with store := some (NewStore Nat monB.MaxRecords) } :=
  (AddMonitor_duplicate_name (Manager.New Nat) monA monB rfl).2

/-- C10: `Write` on a monitor whose private store is nil (never attached to
a Manager) is a total no-op: it does not fail, stores nothing, and returns
the monitor unchanged. -/

theorem Write_nil_store_noop (m : Monitor α) (p : α) (clock : List Int)
    (h : m.store = none) : m.Write p clock = some m := by
  rw [Monitor.Write, h]

theorem Write_nil_store_noop_witness :
    monA.Write 0 [] = some monA :=
  Write_nil_store_noop monA 0 [] rfl

/-- C5 counterexample: the Go `Store.Add` returns nothing to its caller
(its result list is empty), so the caller cannot receive the newly assigned
id: two Add calls with the same payload and the same clock but different
generator states hand back identical (empty) results while the ids assigned
inside the store differ. -/

theorem Add_returns_nothing :
    Store.addCallerResult c5StoreA 0 [5] = Store.addCallerResult c5StoreB 0 [5] ∧
    (Store.Add c5StoreA 0 [5]).map (fun x => x.2.1.id) = some 1310720 ∧
    (Store.Add c5StoreB 0 [5]).map (fun x => x.2.1.id) = some 1310721 ∧
    (1310720 : Int) ≠ 1310721 :=
  ⟨rfl, by decide, by decide, by decide⟩

/-- C5 amended: `Store.Add` returns no value and has no error path — the
Snowflake-style generator cannot fail (it blocks, modelled by consuming
clock readings, rather than erroring) — so whenever the clock advances past
the generator state the add succeeds and the entry is stored. -/

theorem Add_no_error_path (s : Store α) (p : α) (t : Int)
    (hWF : StoreWF s) (ht : s.gen.lastTimestamp < t)
    (htB : t < 35184372088832) :
    ∃ s' en rest, s.Add p [t] = some (s', en, rest) ∧ en ∈ s'.order := by
  obtain ⟨hcap, hlen, hsorted, hindex, hids, hgen⟩ := hWF
  have hgen1 : s.gen.Generate [t]
      = some (packId t 0, { lastTimestamp := t, sequence := 0 }, []) := by
    rw [IDGenerator.Generate]
    rw [if_neg (by omega)]
    dsimp only
    rw [if_neg (by omega)]
  have hfresh : ∀ e ∈ s.order, e.id < packId t 0 := by
    have h0t : (0 : Int) ≤ t := by
      have := hgen.1
      omega
    rw [packId_eq t 0 h0t htB (le_refl 0) (by rw [maxSequence_eq]; omega)]
    intro e he
    have h1 := (hids e he).2
    have h2 := hgen.1
    have h3 := hgen.2.2.1
    have h4 := hgen.2.2.2
    rw [maxSequence_eq] at h4
    simp only [emittedVal] at h1
    nlinarith
  have hrec := addRecord_spec
    ({ s with gen := { lastTimestamp := t, sequence := 0 } })
    (packId t 0) p hcap hlen hsorted hindex hfresh
  dsimp only at hrec
  rw [Store.Add, hgen1]
  dsimp only
  by_cases hcase : s.order.length < s.maxRecords
  · have heq := hrec.1 hcase
    rw [heq]
    refine ⟨_, _, _, rfl, ?_⟩
    dsimp only
    rw [List.mem_append]
    right
    exact List.mem_singleton.mpr rfl
  · have hlencase : s.order.length = s.maxRecords := by omega
    have heq := hrec.2 hlencase
    rw [heq]
    refine ⟨_, _, _, rfl, ?_⟩
    dsimp only
    rw [List.mem_append]
    right
    exact List.mem_singleton.mpr rfl

theorem Add_no_error_path_witness :
    ∃ s' en rest, c5StoreA.Add 0 [5] = some (s', en, rest) ∧ en ∈ s'.order :=
  Add_no_error_path c5StoreA 0 5 (by decide) (by decide) (by decide)
